import Mathlib

/-
Verification of the core algorithmic components of an agentic RAG chatbot:
the sentence-boundary chunker, the retrying embedder and its batch wrappers,
the hybrid (vector + lexical) retrieval fusion, the LLM reranking tool and
the token-budgeted conversation memory window.

Modelling conventions:
- The tiktoken tokenizer is abstracted: a word carries its token count under
  the fixed encoding, and token counting is modelled as additive across
  whitespace joins (count of a space-joined text is the sum of the counts of
  its words).  Sentences are lists of words; a document's content is the
  list of sentences produced by the terminal-punctuation split.
- Scores are rationals.
- External calls (embedding provider, LLM scorer, SQL engine) are modelled
  by oracles passed in explicitly; SQL ORDER BY with ties is determinised as
  a stable sort over the stored row order.
-/

namespace Chunker

/-- Word of the source text together with its token count under the fixed
encoding (tiktoken cl100k_base in the source). -/
structure Word where
  text : String
  tk : Nat
deriving DecidableEq

/-- Sentence as produced by split_by_sentences: a list of words. -/
abbrev Sentence := List Word

/-- Token count of a list of words (count_tokens of the space-joined text,
under the additive tokenizer abstraction). -/
def wordsTk (ws : List Word) : Nat := (ws.map Word.tk).sum

/-- Token count of a sentence (count_tokens applied to one sentence). -/
def sentTk (s : Sentence) : Nat := wordsTk s

/-- Token count of a sentence buffer (count_tokens of the joined chunk). -/
def sentsTk (l : List Sentence) : Nat := (l.map sentTk).sum

/-- Configuration of the chunker: chunk_size and chunk_overlap. -/
structure ChunkerCfg where
  chunk_size : Nat
  chunk_overlap : Nat
deriving DecidableEq

/-- Metadata value: the source stores strings, ints or Python None in the
chunk metadata dict. -/
inductive MVal where
  | str (v : String)
  | nat (v : Nat)
  | null
deriving DecidableEq

/-- Document dictionary: filename/title/author entries, custom metadata
mapping, and the content already split into sentences (split_by_sentences:
empty content yields no sentences). -/
structure Doc where
  filename : Option String
  title : Option String
  author : Option String
  metadata : List (String × String)
  sentences : List Sentence
deriving DecidableEq

/-- Chunk dictionary as built by chunk_document.  There is no flag field of
any kind: the only size-related attributes are token_count and char_count. -/
structure Chunk where
  content : List Word
  chunk_index : Nat
  total_chunks : Nat
  char_count : Nat
  token_count : Nat
  metadata : Option (List (String × MVal))
deriving DecidableEq

/-- Character count of the space-joined content. -/
def charCount (ws : List Word) : Nat :=
  (ws.map (fun w => w.text.length)).sum + (ws.length - 1)

/-- Overlap walk of chunk_document lines 114-123: walk the closed chunk's
sentences backward (the argument is the reversed buffer), accepting a
sentence while the accumulated token count stays within chunk_overlap, and
stop at the first sentence that does not fit.  Returns the accepted suffix
in chronological order together with the accumulated token count. -/
def overlapWalk (budget : Nat) : List Sentence → Nat → List Sentence × Nat
  | [], acc => ([], acc)
  | s :: rest, acc =>
    if acc + sentTk s ≤ budget then
      let p := overlapWalk budget rest (acc + sentTk s)
      (p.1 ++ [s], p.2)
    else ([], acc)

/-- Word-level split of chunk_document lines 87-104: a sentence longer than
chunk_size is split by whitespace words, packing greedily with no overlap.
Arguments: remaining words, current temp_chunk, current temp_token_count. -/
def wordLoop (cfg : ChunkerCfg) : List Word → List Word → Nat → List (List Word)
  | [], temp, _ => if temp = [] then [] else [temp]
  | w :: ws, temp, tTk =>
    if tTk + w.tk > cfg.chunk_size then
      (if temp = [] then [] else [temp]) ++ wordLoop cfg ws [w] w.tk
    else
      wordLoop cfg ws (temp ++ [w]) (tTk + w.tk)

/-- Main sentence loop of chunk_document lines 76-137.  Arguments: remaining
sentences, current_chunk (list of sentences), current_token_count.  Returns
the chunk contents (each the words of one chunk) in order of emission,
including the final flush of the remaining buffer. -/
def chunkLoop (cfg : ChunkerCfg) : List Sentence → List Sentence → Nat → List (List Word)
  | [], current, _ => if current = [] then [] else [current.flatten]
  | s :: rest, current, curTk =>
    let stk := sentTk s
    if stk > cfg.chunk_size then
      (if current = [] then [] else [current.flatten]) ++
        wordLoop cfg s [] 0 ++ chunkLoop cfg rest [] 0
    else if curTk + stk > cfg.chunk_size then
      (if current = [] then [] else [current.flatten]) ++
        (if 0 < cfg.chunk_overlap ∧ current ≠ [] then
          let p := overlapWalk cfg.chunk_overlap current.reverse 0
          chunkLoop cfg rest (p.1 ++ [s]) (p.2 + stk)
        else
          chunkLoop cfg rest [s] stk)
    else
      chunkLoop cfg rest (current ++ [s]) (curTk + stk)

/-- Base chunk metadata of chunk_document lines 152-158. -/
def baseMeta (d : Doc) (idx total : Nat) : List (String × MVal) :=
  [("document_filename", (d.filename.map MVal.str).getD MVal.null),
   ("document_title", (d.title.map MVal.str).getD MVal.null),
   ("document_author", (d.author.map MVal.str).getD MVal.null),
   ("chunk_index", MVal.nat idx),
   ("total_chunks", MVal.nat total)]

/-- Custom metadata copy of chunk_document lines 160-164: document metadata
keys are appended only when not already present in the chunk metadata. -/
def addCustom (base : List (String × MVal)) : List (String × String) → List (String × MVal)
  | [] => base
  | (k, v) :: rest =>
    if base.any (fun kv => kv.1 = k) then addCustom base rest
    else addCustom (base ++ [(k, MVal.str v)]) rest

/-- Chunker.chunk_document: split the document into sentence-packed chunks
with overlap and wrap each chunk content in a chunk dictionary.  An empty
document has no sentences, so the loop emits nothing (the source returns
early with a warning in that case, with the same empty result). -/
def chunk_document (cfg : ChunkerCfg) (d : Doc) (preserve_metadata : Bool) : List Chunk :=
  let contents := chunkLoop cfg d.sentences [] 0
  let total := contents.length
  contents.enum.map (fun ic =>
    { content := ic.2
      chunk_index := ic.1
      total_chunks := total
      char_count := charCount ic.2
      token_count := wordsTk ic.2
      metadata :=
        if preserve_metadata then some (addCustom (baseMeta d ic.1 total) d.metadata)
        else none })

end Chunker

namespace Chunker

lemma wordsTk_append (a b : List Word) : wordsTk (a ++ b) = wordsTk a + wordsTk b := by
  simp [wordsTk]

lemma sentsTk_append (a b : List Sentence) : sentsTk (a ++ b) = sentsTk a + sentsTk b := by
  simp [sentsTk]

lemma sentsTk_single (s : Sentence) : sentsTk [s] = sentTk s := by
  simp [sentsTk]

lemma wordsTk_flatten (l : List Sentence) : wordsTk l.flatten = sentsTk l := by
  induction l with
  | nil => simp [wordsTk, sentsTk]
  | cons s rest ih =>
    simp only [List.flatten_cons, wordsTk_append, ih, sentsTk, List.map_cons, List.sum_cons]
    rfl

lemma overlapWalk_snd_le (budget : Nat) :
    ∀ (l : List Sentence) (acc : Nat), acc ≤ budget → (overlapWalk budget l acc).2 ≤ budget := by
  intro l
  induction l with
  | nil => intro acc h; simpa [overlapWalk] using h
  | cons s rest ih =>
    intro acc h
    simp only [overlapWalk]
    split
    · exact ih _ (by assumption)
    · simpa using h

lemma overlapWalk_snd_eq (budget : Nat) :
    ∀ (l : List Sentence) (acc : Nat),
      (overlapWalk budget l acc).2 = acc + sentsTk (overlapWalk budget l acc).1 := by
  intro l
  induction l with
  | nil => intro acc; simp [overlapWalk, sentsTk]
  | cons s rest ih =>
    intro acc
    simp only [overlapWalk]
    split
    · simp only [sentsTk_append, ih]
      simp [sentsTk]
      omega
    · simp [sentsTk]

/-- Shape of a well-formed emitted chunk content: within the combined
size-plus-overlap budget, or a single word that alone exceeds the size. -/
def GoodChunk (cfg : ChunkerCfg) (c : List Word) : Prop :=
  wordsTk c ≤ cfg.chunk_size + cfg.chunk_overlap ∨
    ∃ w, c = [w] ∧ cfg.chunk_size < w.tk

lemma wordLoop_bound (cfg : ChunkerCfg) :
    ∀ (ws temp : List Word) (tTk : Nat), tTk = wordsTk temp →
      (wordsTk temp ≤ cfg.chunk_size ∨ ∃ w, temp = [w] ∧ cfg.chunk_size < w.tk) →
      ∀ c ∈ wordLoop cfg ws temp tTk, GoodChunk cfg c := by
  intro ws
  induction ws with
  | nil =>
    intro temp tTk _ htemp c hc
    simp only [wordLoop] at hc
    split at hc
    · simp at hc
    · simp only [List.mem_singleton] at hc
      subst hc
      exact htemp.imp_left (fun h => le_trans h (Nat.le_add_right _ _))
  | cons w ws ih =>
    intro temp tTk hco htemp c hc
    simp only [wordLoop] at hc
    split at hc
    · rw [List.mem_append] at hc
      rcases hc with hc | hc
      · split at hc
        · simp at hc
        · simp only [List.mem_singleton] at hc
          subst hc
          exact htemp.imp_left (fun h => le_trans h (Nat.le_add_right _ _))
      · refine ih [w] w.tk (by simp [wordsTk]) ?_ c hc
        rcases le_or_lt w.tk cfg.chunk_size with h | h
        · exact Or.inl (by simpa [wordsTk] using h)
        · exact Or.inr ⟨w, rfl, h⟩
    · refine ih (temp ++ [w]) (tTk + w.tk) (by simp [wordsTk_append, wordsTk, hco]) ?_ c hc
      rename_i hle
      rw [Nat.not_gt_eq] at hle
      exact Or.inl (by rw [wordsTk_append] at *; simp [wordsTk] at *; omega)

lemma chunkLoop_bound (cfg : ChunkerCfg) :
    ∀ (ss current : List Sentence) (curTk : Nat), curTk = sentsTk current →
      sentsTk current ≤ cfg.chunk_size + cfg.chunk_overlap →
      ∀ c ∈ chunkLoop cfg ss current curTk, GoodChunk cfg c := by
  intro ss
  induction ss with
  | nil =>
    intro current curTk _ hcur c hc
    simp only [chunkLoop] at hc
    split at hc
    · simp at hc
    · simp only [List.mem_singleton] at hc
      subst hc
      exact Or.inl (by rw [wordsTk_flatten]; exact hcur)
  | cons s rest ih =>
    intro current curTk hco hcur c hc
    simp only [chunkLoop] at hc
    split at hc
    · -- sentence longer than chunk_size: flush, word-split, continue fresh
      rw [List.mem_append, List.mem_append] at hc
      rcases hc with (hc | hc) | hc
      · split at hc
        · simp at hc
        · simp only [List.mem_singleton] at hc
          subst hc
          exact Or.inl (by rw [wordsTk_flatten]; exact hcur)
      · exact wordLoop_bound cfg s [] 0 (by simp [wordsTk]) (Or.inl (by simp [wordsTk])) c hc
      · exact ih [] 0 (by simp [sentsTk]) (by simp [sentsTk]) c hc
    · split at hc
      · -- adding the sentence would overflow: flush, then seed with overlap
        rw [List.mem_append] at hc
        rcases hc with hc | hc
        · split at hc
          · simp at hc
          · simp only [List.mem_singleton] at hc
            subst hc
            exact Or.inl (by rw [wordsTk_flatten]; exact hcur)
        · split at hc
          · refine ih _ _ ?_ ?_ c hc
            · rw [sentsTk_append, sentsTk_single, overlapWalk_snd_eq]
              omega
            · have h1 : (overlapWalk cfg.chunk_overlap current.reverse 0).2 ≤ cfg.chunk_overlap :=
                overlapWalk_snd_le _ _ 0 (Nat.zero_le _)
              have h3 := overlapWalk_snd_eq cfg.chunk_overlap current.reverse 0
              rw [sentsTk_append, sentsTk_single]
              omega
          · refine ih [s] (sentTk s) (sentsTk_single s).symm ?_ c hc
            rw [sentsTk_single]
            omega
      · -- the sentence fits: extend the running buffer
        refine ih (current ++ [s]) (curTk + sentTk s) ?_ ?_ c hc
        · rw [sentsTk_append, sentsTk_single, hco]
        · rw [sentsTk_append, sentsTk_single]
          omega

end Chunker

namespace Chunker

/-- Concrete two-sentence document used for concrete evaluations: sentence
one is a single 5-token word, sentence two a single 8-token word. -/
def w5 : Word := ⟨"alpha", 5⟩

def w8 : Word := ⟨"beta", 8⟩

def cexDoc : Doc := ⟨some "doc.txt", none, none, [], [[w5], [w8]]⟩

def cexCfg : ChunkerCfg := ⟨10, 5⟩

/-- Second chunk produced for cexDoc with chunk_size 10 and overlap 5: the
overlap walk seeds the new chunk with the previous 5-token sentence, then
the 8-token sentence is added, for a total of 13 tokens. -/
def cexWitChunk : Chunk :=
  { content := [w5, w8]
    chunk_index := 1
    total_chunks := 2
    char_count := 10
    token_count := 13
    metadata := some [("document_filename", MVal.str "doc.txt"),
                      ("document_title", MVal.null),
                      ("document_author", MVal.null),
                      ("chunk_index", MVal.nat 1),
                      ("total_chunks", MVal.nat 2)] }

end Chunker

/-- C1, counterexample.  With chunk_size 10 and overlap 5, the document with
two sentences of 5 and 8 tokens yields a chunk of 13 tokens that contains
two words (two whole sentences), each of token count at most 10: the
over-limit chunk is not a single unsplittable sentence or word, so the
claimed exception does not cover it, and no chunk carries any flag (the
Chunk structure has no flag field at all). -/
theorem c1_overlap_exceeds_counterexample :
    ∃ c ∈ Chunker.chunk_document Chunker.cexCfg Chunker.cexDoc true,
      10 < c.token_count ∧ 2 ≤ c.content.length ∧ ∀ w ∈ c.content, w.tk ≤ 10 := by
  decide

/-- C1 (amended): every chunk returned by chunk_document has token count at
most chunk_size + chunk_overlap, except chunks consisting of a single word
whose own token count exceeds chunk_size; no over-limit chunk is flagged —
the chunk dictionary records only token_count.  The over-limit case arises
both from long-word splitting and from overlap seeding (a chunk seeded with
overlap sentences plus a near-limit sentence may exceed chunk_size while
staying within chunk_size + chunk_overlap). -/
theorem c1_chunk_token_bound (cfg : Chunker.ChunkerCfg) (d : Chunker.Doc) (pm : Bool)
    (c : Chunker.Chunk) (hc : c ∈ Chunker.chunk_document cfg d pm) :
    c.token_count ≤ cfg.chunk_size + cfg.chunk_overlap ∨
      ∃ w, c.content = [w] ∧ cfg.chunk_size < w.tk := by
  unfold Chunker.chunk_document at hc
  simp only [List.mem_map] at hc
  obtain ⟨ic, hmem, rfl⟩ := hc
  have hsnd : ic.2 ∈ Chunker.chunkLoop cfg d.sentences [] 0 := by
    have := List.mem_enum_iff_getElem?.mp hmem
    exact List.getElem?_mem this
  exact Chunker.chunkLoop_bound cfg d.sentences [] 0 (by simp [Chunker.sentsTk])
    (by simp [Chunker.sentsTk]) ic.2 hsnd

/-- C1 witness: the amended bound applied to the concrete over-limit chunk
of the counterexample document (13 tokens, at most 10 + 5). -/
theorem c1_chunk_token_bound_witness :
    Chunker.cexWitChunk ∈ Chunker.chunk_document Chunker.cexCfg Chunker.cexDoc true ∧
      (Chunker.cexWitChunk.token_count ≤
          Chunker.cexCfg.chunk_size + Chunker.cexCfg.chunk_overlap ∨
        ∃ w, Chunker.cexWitChunk.content = [w] ∧ Chunker.cexCfg.chunk_size < w.tk) :=
  ⟨by decide,
   c1_chunk_token_bound Chunker.cexCfg Chunker.cexDoc true Chunker.cexWitChunk (by decide)⟩

/-- C9: chunking is deterministic — chunk_document is a pure function of the
document and the configuration, so identical inputs and configuration yield
identical chunk sequences. -/
theorem c9_chunk_document_deterministic (cfg cfg' : Chunker.ChunkerCfg)
    (d d' : Chunker.Doc) (pm pm' : Bool)
    (hcfg : cfg = cfg') (hd : d = d') (hpm : pm = pm') :
    Chunker.chunk_document cfg d pm = Chunker.chunk_document cfg' d' pm' := by
  subst hcfg; subst hd; subst hpm; rfl

/-- C9 witness: determinism applied to the concrete example document. -/
theorem c9_chunk_document_deterministic_witness :
    Chunker.chunk_document Chunker.cexCfg Chunker.cexDoc true =
      Chunker.chunk_document Chunker.cexCfg Chunker.cexDoc true :=
  c9_chunk_document_deterministic Chunker.cexCfg Chunker.cexCfg Chunker.cexDoc Chunker.cexDoc
    true true rfl rfl rfl

namespace Embedder

/-- Result of one HTTP call to the embedding provider, as distinguished by
the exception handlers in embed_text: a 200 response carrying an embedding
payload (the empty list models a missing or empty embedding field), a
timeout, or another transport-level request failure. -/
inductive CallResult where
  | ok (v : List ℚ)
  | timeout
  | requestError
deriving DecidableEq

/-- Errors raised by embed_text: ValueError on empty input (the spec's
validation / permanent error) and RuntimeError for everything surfaced
after the retry loop (the spec's transient error). -/
inductive EmbedErr where
  | valueError
  | runtimeError
deriving DecidableEq

deriving instance DecidableEq for Except

/-- Observable outcome of embed_text: the returned value or raised error,
the number of provider calls made, and the backoff sleep durations (in
seconds) in the order they were performed. -/
structure EmbedTrace where
  res : Except EmbedErr (List ℚ)
  calls : Nat
  sleeps : List Nat
deriving DecidableEq

/-- Retry loop of embed_text lines 62-93.  The provider is an oracle giving
the result of the attempt-th call.  A 200 response returns immediately (or
raises RuntimeError at once when the embedding field is missing — that
RuntimeError is not caught by the timeout/request handlers, so it is never
retried).  Timeout and request errors sleep 2 to the power attempt and
retry, except on the last attempt, which raises RuntimeError.  If the loop
runs zero times, line 93 raises RuntimeError. -/
def embedLoop (provider : Nat → CallResult) : Nat → Nat → List Nat → EmbedTrace
  | attempt, 0, sleeps => ⟨.error .runtimeError, attempt, sleeps⟩
  | attempt, r + 1, sleeps =>
    match provider attempt with
    | .ok v =>
      if v = [] then ⟨.error .runtimeError, attempt + 1, sleeps⟩
      else ⟨.ok v, attempt + 1, sleeps⟩
    | .timeout =>
      if r = 0 then ⟨.error .runtimeError, attempt + 1, sleeps⟩
      else embedLoop provider (attempt + 1) r (sleeps ++ [2 ^ attempt])
    | .requestError =>
      if r = 0 then ⟨.error .runtimeError, attempt + 1, sleeps⟩
      else embedLoop provider (attempt + 1) r (sleeps ++ [2 ^ attempt])

/-- Guard of embed_text line 54: the text is empty or strips to the empty
string, i.e. every character is whitespace. -/
def isBlank (text : String) : Bool := text.toList.all Char.isWhitespace

/-- Embedder.embed_text: validate the input, then run the retry loop. -/
def embed_text (provider : Nat → CallResult) (text : String) (retry_count : Nat) : EmbedTrace :=
  if isBlank text then ⟨.error .valueError, 0, []⟩
  else embedLoop provider 0 retry_count []

/-- Embedder.embed_batch lines 95-127: embed each text independently with
the default retry count of 3, mapping any raised exception to an absent
vector.  The provider oracle gives, for a text and an attempt number, the
result of that call. -/
def embed_batch (provider : String → Nat → CallResult) (texts : List String) :
    List (Option (List ℚ)) :=
  texts.map (fun t => (embed_text (provider t) t 3).res.toOption)

end Embedder

namespace BatchProcessor

/-- Chunk record handled by the batch processor: its text content, an
optional embedding slot filled on success, and the remaining dictionary
entries abstracted as a key-value list. -/
structure IChunk where
  content : String
  embedding : Option (List ℚ)
  rest : List (String × String)
deriving DecidableEq

/-- Batch split of process_chunks lines 46-49: successive slices of
batch_size chunks.  The source raises for a zero batch size (range with
step 0); that case is modelled as no batches. -/
def toBatches : Nat → List α → List (List α)
  | _, [] => []
  | 0, _ :: _ => []
  | b + 1, x :: xs => ((x :: xs).take (b + 1)) :: toBatches (b + 1) ((x :: xs).drop (b + 1))
termination_by _ l => l.length
decreasing_by simp; omega

/-- Embedding outcome for a single chunk content under embed_batch: present
on success, absent when embed_text raised. -/
def embedOf (provider : String → Nat → Embedder.CallResult) (c : IChunk) :
    Option (List ℚ) :=
  (Embedder.embed_text (provider c.content) c.content 3).res.toOption

/-- Inner loop of process_chunks lines 57-75 for one batch: embed the batch
contents, pair each chunk with its optional embedding, keep exactly the
chunks whose embedding is present (attaching it), and drop the rest. -/
def perBatch (provider : String → Nat → Embedder.CallResult) (batch : List IChunk) :
    List IChunk :=
  (batch.zip (Embedder.embed_batch provider (batch.map (fun c => c.content)))).filterMap
    (fun ce => ce.2.map (fun v => { ce.1 with embedding := some v }))

/-- BatchProcessor.process_chunks lines 24-87: split the chunks into
batches, embed each batch, and append to the output only the chunks whose
embedding is present, with the embedding attached; absent vectors are
counted as failures and the chunk is dropped.  The broad per-batch handler
at lines 77-80 is unreachable here because embed_batch never raises. -/
def process_chunks (provider : String → Nat → Embedder.CallResult) (batch_size : Nat)
    (chunks : List IChunk) : List IChunk :=
  (toBatches batch_size chunks).foldl (fun acc batch => acc ++ perBatch provider batch) []

end BatchProcessor

namespace Embedder

lemma backoff_sleeps_cons (attempt r : Nat) :
    (List.range (r + 1)).map (fun j => 2 ^ (attempt + j)) =
      2 ^ attempt :: (List.range r).map (fun j => 2 ^ (attempt + 1 + j)) := by
  rw [List.range_succ_eq_map, List.map_cons, List.map_map]
  have h2 : ((fun j => 2 ^ (attempt + j)) ∘ Nat.succ) = (fun j => 2 ^ (attempt + 1 + j)) := by
    funext a
    simp only [Function.comp_apply]
    congr 1
    omega
  rw [h2, Nat.add_zero]

lemma embedLoop_step_fail (provider : Nat → CallResult) (attempt r : Nat) (sleeps : List Nat)
    (h : provider attempt = .timeout ∨ provider attempt = .requestError) (hr : r ≠ 0) :
    embedLoop provider attempt (r + 1) sleeps =
      embedLoop provider (attempt + 1) r (sleeps ++ [2 ^ attempt]) := by
  rcases h with h | h <;>
  · rw [embedLoop, h]
    dsimp only
    rw [if_neg hr]

lemma embedLoop_all_fail (provider : Nat → CallResult) :
    ∀ (r attempt : Nat) (sleeps : List Nat), 0 < r →
      (∀ i, attempt ≤ i → i < attempt + r →
        provider i = .timeout ∨ provider i = .requestError) →
      embedLoop provider attempt r sleeps =
        ⟨.error .runtimeError, attempt + r,
          sleeps ++ (List.range (r - 1)).map (fun j => 2 ^ (attempt + j))⟩ := by
  intro r
  induction r with
  | zero => intro attempt sleeps h; omega
  | succ r ih =>
    intro attempt sleeps _ hfail
    have hcur := hfail attempt (le_refl _) (by omega)
    rcases Nat.eq_zero_or_pos r with hr | hr
    · subst hr
      rcases hcur with h | h <;> simp [embedLoop, h]
    · obtain ⟨r', rfl⟩ : ∃ r', r = r' + 1 := ⟨r - 1, by omega⟩
      have hrec := ih (attempt + 1) (sleeps ++ [2 ^ attempt]) hr
        (fun i h1 h2 => hfail i (by omega) (by omega))
      rw [embedLoop_step_fail provider attempt (r' + 1) sleeps hcur (by omega), hrec]
      simp only [EmbedTrace.mk.injEq, Nat.add_sub_cancel]
      refine ⟨trivial, by omega, ?_⟩
      rw [List.append_assoc]
      congr 1
      exact (backoff_sleeps_cons attempt r').symm

end Embedder

namespace Embedder

lemma embed_text_first_ok (provider : Nat → CallResult) (text : String) (rc : Nat)
    (hb : isBlank text = false) (hrc : 0 < rc)
    (v : List ℚ) (hv : v ≠ []) (hp : provider 0 = .ok v) :
    embed_text provider text rc = ⟨.ok v, 1, []⟩ := by
  obtain ⟨r, rfl⟩ : ∃ r, rc = r + 1 := ⟨rc - 1, by omega⟩
  rw [embed_text, if_neg (by simp [hb]), embedLoop, hp]
  dsimp only
  rw [if_neg hv]

lemma embed_text_isNone_eq (provider : Nat → CallResult) (t : String)
    (h : isBlank t = false → ∃ v, v ≠ [] ∧ provider 0 = .ok v) :
    ((embed_text provider t 3).res.toOption).isNone = isBlank t := by
  rcases hb : isBlank t with _ | _
  · obtain ⟨v, hv, hp⟩ := h hb
    rw [embed_text_first_ok provider t 3 hb (by omega) v hv hp]
    rfl
  · rw [embed_text, if_pos (by simp [hb])]
    rfl

end Embedder

/-- C8: embed_text fails immediately with ValueError (the validation /
permanent error) on empty or whitespace-only text, making no provider call
and no retry; and when every attempt times out or fails at transport level
it makes exactly retry_count calls, sleeping 2^0, 2^1, ... seconds between
consecutive attempts (each delay double the previous one), and finally
raises RuntimeError (the transient error). -/
theorem c8_embed_text_error_policy (provider : Nat → Embedder.CallResult)
    (text : String) (rc : Nat) (hrc : 0 < rc) :
    (Embedder.isBlank text = true →
      Embedder.embed_text provider text rc =
        ⟨.error .valueError, 0, []⟩) ∧
    (Embedder.isBlank text = false →
      (∀ i, i < rc →
        provider i = .timeout ∨ provider i = .requestError) →
      Embedder.embed_text provider text rc =
        ⟨.error .runtimeError, rc, (List.range (rc - 1)).map (fun j => 2 ^ j)⟩) := by
  constructor
  · intro hb
    rw [Embedder.embed_text, if_pos (by simp [hb])]
  · intro hb hfail
    rw [Embedder.embed_text, if_neg (by simp [hb])]
    rw [Embedder.embedLoop_all_fail provider rc 0 [] hrc
      (fun i h1 h2 => hfail i (by omega))]
    simp

/-- C8 witness: with three attempts all timing out on the text "hi", the
call makes 3 provider calls, sleeps 1 then 2 seconds, and raises
RuntimeError. -/
theorem c8_embed_text_error_policy_witness :
    Embedder.embed_text (fun _ => Embedder.CallResult.timeout) "hi" 3 =
      ⟨.error .runtimeError, 3, [1, 2]⟩ := by
  have h := (c8_embed_text_error_policy (fun _ => Embedder.CallResult.timeout) "hi" 3
    (by decide)).2 (by decide) (fun i _ => Or.inl rfl)
  rw [h]
  rfl

/-- C4: embed_batch returns one result per input text, in input order; a
result is absent exactly when its text is empty or whitespace-only
(provided the provider succeeds on the first attempt for non-blank texts),
so there are exactly M absent and N − M present vectors for M blank texts
among N; and the function is total — every exception inside is caught, so
none propagates out of the batch call. -/
theorem c4_embed_batch_shape (provider : String → Nat → Embedder.CallResult)
    (texts : List String)
    (hgood : ∀ t ∈ texts, Embedder.isBlank t = false →
      ∃ v, v ≠ [] ∧ provider t 0 = .ok v) :
    (Embedder.embed_batch provider texts).length = texts.length ∧
    (∀ i : Nat, ((Embedder.embed_batch provider texts)[i]?).map Option.isNone =
      (texts[i]?).map Embedder.isBlank) ∧
    (Embedder.embed_batch provider texts).countP Option.isNone =
      texts.countP Embedder.isBlank ∧
    (Embedder.embed_batch provider texts).countP Option.isSome =
      texts.length - texts.countP Embedder.isBlank := by
  have hpt : ∀ t ∈ texts,
      (((Embedder.embed_text (provider t) t 3).res.toOption).isNone) = Embedder.isBlank t :=
    fun t ht => Embedder.embed_text_isNone_eq (provider t) t (hgood t ht)
  refine ⟨by simp [Embedder.embed_batch], ?_, ?_, ?_⟩
  · intro i
    rw [Embedder.embed_batch, List.getElem?_map]
    rcases hi : texts[i]? with _ | t
    · rfl
    · have ht : t ∈ texts := List.getElem?_mem hi
      simp [hpt t ht]
  · rw [Embedder.embed_batch, List.countP_map]
    exact List.countP_congr (fun t ht => by simp [Function.comp, hpt t ht])
  · rw [Embedder.embed_batch, List.countP_map]
    have hsplit := List.length_eq_countP_add_countP Embedder.isBlank texts
    have hco : List.countP (Option.isSome ∘
        fun t => (Embedder.embed_text (provider t) t 3).res.toOption) texts =
        List.countP (fun t => !(Embedder.isBlank t)) texts :=
      List.countP_congr (fun t ht => by
        have h := hpt t ht
        rcases ho : (Embedder.embed_text (provider t) t 3).res.toOption with _ | v <;>
        · rw [ho] at h
          simp [Function.comp, ho, ← h])
    have hbridge : List.countP (fun t => !(Embedder.isBlank t)) texts =
        List.countP (fun a => ¬ Embedder.isBlank a) texts :=
      List.countP_congr (fun t _ => by simp)
    rw [hco]
    omega

namespace BatchProcessor

lemma toBatches_flatten : ∀ (b : Nat) (l : List α), (toBatches (b + 1) l).flatten = l
  | _, [] => by simp [toBatches]
  | b, x :: xs => by
    rw [toBatches, List.flatten_cons, toBatches_flatten b ((x :: xs).drop (b + 1)),
      List.take_append_drop]
termination_by _ l => l.length
decreasing_by simp; omega

lemma foldl_append_collect (pb : List β → List γ) :
    ∀ (batches : List (List β)) (acc : List γ),
      batches.foldl (fun acc b => acc ++ pb b) acc = acc ++ (batches.map pb).flatten := by
  intro batches
  induction batches with
  | nil => simp
  | cons b bs ih => intro acc; simp [ih, List.append_assoc]

lemma perBatch_eq_filterMap (provider : String → Nat → Embedder.CallResult) :
    ∀ batch : List IChunk,
      perBatch provider batch =
        batch.filterMap (fun c =>
          (embedOf provider c).map (fun v => { c with embedding := some v })) := by
  intro batch
  induction batch with
  | nil => rfl
  | cons c cs ih =>
    simp only [perBatch, Embedder.embed_batch, List.map_cons, List.map_map,
      List.zip_cons_cons, List.filterMap_cons] at ih ⊢
    rcases ho : (Embedder.embed_text (provider c.content) c.content 3).res.toOption with _ | v <;>
      simp [embedOf, ho, ih]

lemma length_filterMap_map_opt (e : α → Option β) (h : α → β → γ) :
    ∀ l : List α,
      (l.filterMap (fun c => (e c).map (h c))).length =
        l.length - (l.filter (fun c => (e c).isNone)).length := by
  intro l
  induction l with
  | nil => rfl
  | cons c cs ih =>
    have hle : (cs.filter (fun x => (e x).isNone)).length ≤ cs.length :=
      List.length_filter_le _ _
    rcases ho : e c with _ | v
    · rw [List.filterMap_cons, List.filter_cons]
      simp [ho, ih]
    · rw [List.filterMap_cons, List.filter_cons]
      simp [ho, ih]
      omega

end BatchProcessor

/-- C10: process_chunks returns exactly those input chunks whose embedding
succeeded, in their original relative order, each with the embedding
attached; chunks whose embedding failed are silently dropped, so the
output length is the input length minus the failure count, with no
placeholder for failed items. -/
theorem c10_process_chunks_keeps_successes
    (provider : String → Nat → Embedder.CallResult) (bs : Nat) (hbs : 0 < bs)
    (chunks : List BatchProcessor.IChunk) :
    BatchProcessor.process_chunks provider bs chunks =
      chunks.filterMap (fun c =>
        (BatchProcessor.embedOf provider c).map
          (fun v => { c with embedding := some v })) ∧
    (BatchProcessor.process_chunks provider bs chunks).length =
      chunks.length -
        (chunks.filter (fun c => (BatchProcessor.embedOf provider c).isNone)).length := by
  obtain ⟨b, rfl⟩ : ∃ b, bs = b + 1 := ⟨bs - 1, by omega⟩
  have hmain : BatchProcessor.process_chunks provider (b + 1) chunks =
      chunks.filterMap (fun c =>
        (BatchProcessor.embedOf provider c).map
          (fun v => { c with embedding := some v })) := by
    rw [BatchProcessor.process_chunks, BatchProcessor.foldl_append_collect, List.nil_append]
    rw [List.map_congr_left
      (fun batch _ => BatchProcessor.perBatch_eq_filterMap provider batch)]
    rw [← List.filterMap_flatten, BatchProcessor.toBatches_flatten]
  refine ⟨hmain, ?_⟩
  rw [hmain]
  exact BatchProcessor.length_filterMap_map_opt _ _ chunks

/-- Concrete embedding provider for witnesses: every call returns the
one-dimensional vector [1]. -/
def okProvider : String → Nat → Embedder.CallResult := fun _ _ => .ok [1]

/-- Concrete chunk list for the C10 witness: two embeddable chunks around
one whose content is empty (its embedding fails with ValueError). -/
def chunks10 : List BatchProcessor.IChunk :=
  [⟨"alpha", none, []⟩, ⟨"", none, []⟩, ⟨"beta", none, []⟩]

/-- C10 witness: the characterisation applied with batch size 2 to the
concrete three-chunk list. -/
theorem c10_process_chunks_keeps_successes_witness :
    BatchProcessor.process_chunks okProvider 2 chunks10 =
      chunks10.filterMap (fun c =>
        (BatchProcessor.embedOf okProvider c).map
          (fun v => { c with embedding := some v })) ∧
    (BatchProcessor.process_chunks okProvider 2 chunks10).length =
      chunks10.length -
        (chunks10.filter (fun c => (BatchProcessor.embedOf okProvider c).isNone)).length :=
  c10_process_chunks_keeps_successes okProvider 2 (by decide) chunks10

/-- C4 witness: the batch shape theorem applied to a concrete four-text
batch with two blank entries under the always-succeeding provider. -/
theorem c4_embed_batch_shape_witness :
    (Embedder.embed_batch okProvider ["hello", "", "world", " "]).length = 4 ∧
    (Embedder.embed_batch okProvider ["hello", "", "world", " "]).countP Option.isNone = 2 ∧
    (Embedder.embed_batch okProvider ["hello", "", "world", " "]).countP Option.isSome = 2 := by
  have h := c4_embed_batch_shape okProvider ["hello", "", "world", " "]
    (fun t ht hb => ⟨[1], by simp, rfl⟩)
  refine ⟨?_, ?_, ?_⟩
  · rw [h.1]
    decide
  · rw [h.2.2.1]
    decide
  · rw [h.2.2.2]
    decide

namespace MemoryService

/-- Stored conversation message: role, content and the token count of the
content under the fixed encoding (count_tokens in the source). -/
structure Msg where
  role : String
  content : String
  tokens : Nat
deriving DecidableEq

/-- Total token count of a list of messages. -/
def tokSum (l : List Msg) : Nat := (l.map Msg.tokens).sum

/-- MessageRepository.get_by_conversation lines 47-70: the stored messages
(given here in chronological creation order) are sorted newest first,
limited, and reversed back, yielding the most recent `limit` messages in
chronological order. -/
def get_by_conversation (msgs : List Msg) (limit : Nat) : List Msg :=
  (msgs.reverse.take limit).reverse

/-- Token-budget walk of get_conversation_history lines 54-69: iterate the
window candidates newest first (the argument list is already reversed),
stop at the first message whose inclusion would exceed max_tokens, and
build the history chronologically by prepending. -/
def windowLoop (maxTokens : Nat) : List Msg → Nat → List Msg → List Msg
  | [], _, hist => hist
  | m :: rest, total, hist =>
    if total + m.tokens > maxTokens then hist
    else windowLoop maxTokens rest (total + m.tokens) (m :: hist)

/-- MemoryService.get_conversation_history lines 27-76: fetch the most
recent max_messages messages, then apply the token budget walking backward
from the newest. -/
def get_conversation_history (maxMessages maxTokens : Nat) (msgs : List Msg) : List Msg :=
  windowLoop maxTokens (get_by_conversation msgs maxMessages).reverse 0 []

lemma windowLoop_spec (maxT : Nat) :
    ∀ (l : List Msg) (total : Nat) (hist : List Msg), total ≤ maxT →
      ∃ p rest, l = p ++ rest ∧
        windowLoop maxT l total hist = p.reverse ++ hist ∧
        total + tokSum p ≤ maxT ∧
        (∀ m ∈ rest.head?, total + tokSum p + m.tokens > maxT) := by
  intro l
  induction l with
  | nil =>
    intro total hist h
    exact ⟨[], [], rfl, rfl, by simpa [tokSum] using h, by simp⟩
  | cons m rest ih =>
    intro total hist h
    by_cases hm : total + m.tokens > maxT
    · refine ⟨[], m :: rest, rfl, ?_, by simpa [tokSum] using h, ?_⟩
      · rw [windowLoop, if_pos hm]
        rfl
      · intro x hx
        simp only [List.head?_cons, Option.mem_def, Option.some.injEq] at hx
        subst hx
        simpa [tokSum] using hm
    · obtain ⟨p, rest2, hdec, hrun, hbound, hstop⟩ :=
        ih (total + m.tokens) (m :: hist) (by omega)
      refine ⟨m :: p, rest2, by rw [hdec]; rfl, ?_, ?_, ?_⟩
      · rw [windowLoop, if_neg hm, hrun, List.reverse_cons, List.append_assoc]
        rfl
      · simp only [tokSum, List.map_cons, List.sum_cons] at hbound ⊢
        omega
      · intro x hx
        have := hstop x hx
        simp only [tokSum, List.map_cons, List.sum_cons] at this ⊢
        omega

end MemoryService

/-- C7: the memory window contains at most maxMessages messages, its summed
token count is at most maxTokens, it is a contiguous suffix of the stored
chronological history (so it is oldest-first and drops exactly a prefix of
older turns), and the backward walk is greedy: the candidates newest-first
decompose into the kept part and a remainder whose first (newest excluded)
message would push the window over the token budget. -/
theorem c7_memory_window_bounds (maxM maxT : Nat) (msgs : List MemoryService.Msg) :
    (MemoryService.get_conversation_history maxM maxT msgs).length ≤ maxM ∧
    MemoryService.tokSum (MemoryService.get_conversation_history maxM maxT msgs) ≤ maxT ∧
    List.IsSuffix (MemoryService.get_conversation_history maxM maxT msgs) msgs ∧
    (∃ rest, msgs.reverse.take maxM =
        (MemoryService.get_conversation_history maxM maxT msgs).reverse ++ rest ∧
      ∀ m ∈ rest.head?,
        MemoryService.tokSum (MemoryService.get_conversation_history maxM maxT msgs) +
          m.tokens > maxT) := by
  obtain ⟨p, rest, hdec, hrun, hbound, hstop⟩ :=
    MemoryService.windowLoop_spec maxT ((MemoryService.get_by_conversation msgs maxM).reverse)
      0 [] (Nat.zero_le _)
  have hcand : (MemoryService.get_by_conversation msgs maxM).reverse =
      msgs.reverse.take maxM := by
    rw [MemoryService.get_by_conversation, List.reverse_reverse]
  rw [hcand] at hdec hrun
  have hwin : MemoryService.get_conversation_history maxM maxT msgs = p.reverse := by
    rw [MemoryService.get_conversation_history, hcand, hrun, List.append_nil]
  have hlenp : p.length ≤ maxM := by
    have h1 : p.length ≤ (msgs.reverse.take maxM).length := by
      rw [hdec]
      simp
    have h2 : (msgs.reverse.take maxM).length ≤ maxM := by
      simp
    omega
  have htokrev : MemoryService.tokSum p.reverse = MemoryService.tokSum p := by
    simp [MemoryService.tokSum, List.sum_reverse]
  refine ⟨?_, ?_, ?_, ?_⟩
  · rw [hwin, List.length_reverse]
    exact hlenp
  · rw [hwin, htokrev]
    omega
  · rw [hwin]
    refine ⟨(msgs.reverse.drop maxM).reverse ++ rest.reverse, ?_⟩
    have hsplit : msgs = ((msgs.reverse.take maxM) ++ msgs.reverse.drop maxM).reverse := by
      rw [List.take_append_drop, List.reverse_reverse]
    conv_rhs => rw [hsplit, hdec]
    simp [List.reverse_append, List.append_assoc]
  · refine ⟨rest, ?_, ?_⟩
    · rw [hwin, List.reverse_reverse, hdec]
    · intro m hm
      have := hstop m hm
      rw [hwin, htokrev]
      omega

namespace StableSort

/-- Stable insertion of one element into a list: the element is placed
before the first existing element it compares less-or-equal against, so
ties keep the inserted (earlier) element first. -/
def insertS (le : α → α → Bool) (x : α) : List α → List α
  | [] => [x]
  | y :: ys => if le x y then x :: y :: ys else y :: insertS le x ys

/-- Stable sort by insertion.  A stable sort is unique as a function, so
this models both the Python list sort (stable by specification) and SQL
ORDER BY determinised over the incoming row order. -/
def sortS (le : α → α → Bool) : List α → List α
  | [] => []
  | x :: xs => insertS le x (sortS le xs)

lemma length_insertS (le : α → α → Bool) (x : α) :
    ∀ l, (insertS le x l).length = l.length + 1 := by
  intro l
  induction l with
  | nil => rfl
  | cons y ys ih =>
    rw [insertS]
    split <;> simp [ih]

lemma length_sortS (le : α → α → Bool) :
    ∀ l : List α, (sortS le l).length = l.length := by
  intro l
  induction l with
  | nil => rfl
  | cons x xs ih => rw [sortS, length_insertS, ih, List.length_cons]

lemma mem_insertS (le : α → α → Bool) (x a : α) :
    ∀ l, a ∈ insertS le x l ↔ a = x ∨ a ∈ l := by
  intro l
  induction l with
  | nil => simp [insertS]
  | cons y ys ih =>
    rw [insertS]
    split
    · simp
    · simp only [List.mem_cons, ih]
      tauto

lemma mem_sortS (le : α → α → Bool) (a : α) :
    ∀ l, a ∈ sortS le l ↔ a ∈ l := by
  intro l
  induction l with
  | nil => simp [sortS]
  | cons x xs ih =>
    rw [sortS, mem_insertS]
    simp [ih]

lemma sorted_insertS (le : α → α → Bool)
    (trans : ∀ a b c, le a b = true → le b c = true → le a c = true)
    (total : ∀ a b, le a b = true ∨ le b a = true) (x : α) :
    ∀ l, l.Pairwise (fun a b => le a b = true) →
      (insertS le x l).Pairwise (fun a b => le a b = true) := by
  intro l
  induction l with
  | nil => intro _; simp [insertS]
  | cons y ys ih =>
    intro h
    rw [List.pairwise_cons] at h
    rw [insertS]
    split
    · rename_i hxy
      refine List.pairwise_cons.mpr ⟨?_, List.pairwise_cons.mpr h⟩
      intro b hb
      rcases List.mem_cons.mp hb with rfl | hb
      · exact hxy
      · exact trans x y b hxy (h.1 b hb)
    · rename_i hxy
      have hyx : le y x = true := (total x y).resolve_left (by simpa using hxy)
      refine List.pairwise_cons.mpr ⟨?_, ih h.2⟩
      intro b hb
      rcases (mem_insertS le x b ys).mp hb with rfl | hb
      · exact hyx
      · exact h.1 b hb

lemma sorted_sortS (le : α → α → Bool)
    (trans : ∀ a b c, le a b = true → le b c = true → le a c = true)
    (total : ∀ a b, le a b = true ∨ le b a = true) :
    ∀ l : List α, (sortS le l).Pairwise (fun a b => le a b = true) := by
  intro l
  induction l with
  | nil => simp [sortS]
  | cons x xs ih => exact sorted_insertS le trans total x _ ih

end StableSort

namespace Reranker

/-- Retrieved chunk as passed to the reranking tool: identity, text content
and the fused retrieval score kept for diagnostics. -/
structure RChunk where
  id : Nat
  content : String
  score : ℚ
deriving DecidableEq

/-- Chunk after scoring: the source adds a rerank_score entry to the chunk
dictionary. -/
structure Scored where
  chunk : RChunk
  rerank_score : ℚ
deriving DecidableEq

/-- LLMService.score_relevance lines 110-139: the scorer oracle stands for
the generate call plus numeric parsing of the response on the query and the
candidate text truncated to its first 500 characters; when any step raises,
the neutral default 0.5 is returned, and a parsed value is clamped into
[0, 1]. -/
def score_relevance (scorer : String → String → Option ℚ) (query text : String) : ℚ :=
  match scorer query (text.take 500) with
  | none => 1 / 2
  | some s => max 0 (min 1 s)

/-- Comparison used by the sort: descending by rerank score.  The Python
sort with a key and reverse=True is stable, as is mergeSort here. -/
def scoreGe (a b : Scored) : Bool := b.rerank_score ≤ a.rerank_score

/-- RerankingTool._run lines 33-58: score the first 2 times top_k chunks of
the already-sorted input, sort them descending by the new score (stable),
and return the first top_k. -/
def rerank (scorer : String → String → Option ℚ) (query : String)
    (chunks : List RChunk) (top_k : Nat) : List Scored :=
  let reranked := (chunks.take (top_k * 2)).map
    (fun c => ⟨c, score_relevance scorer query c.content⟩)
  (StableSort.sortS scoreGe reranked).take top_k

end Reranker

/-- C6: rerank scores only the first 2 times top_k candidates of the input,
substitutes the neutral score 0.5 for a candidate whose scoring oracle
fails, clamps every score into [0, 1], sorts descending by the new score
and returns the first top_k, so the output size is at most top_k and at
most the input size, every returned candidate comes from the first
2 times top_k input chunks, and the output is ordered by non-increasing
rerank score. -/
theorem c6_rerank_shape (scorer : String → String → Option ℚ) (query : String)
    (chunks : List Reranker.RChunk) (top_k : Nat) :
    (Reranker.rerank scorer query chunks top_k).length ≤ top_k ∧
    (Reranker.rerank scorer query chunks top_k).length ≤ chunks.length ∧
    (Reranker.rerank scorer query chunks top_k).Pairwise
      (fun a b => b.rerank_score ≤ a.rerank_score) ∧
    (∀ s ∈ Reranker.rerank scorer query chunks top_k,
      s.chunk ∈ chunks.take (top_k * 2) ∧
      s.rerank_score = Reranker.score_relevance scorer query s.chunk.content ∧
      (scorer query (s.chunk.content.take 500) = none → s.rerank_score = 1 / 2) ∧
      0 ≤ s.rerank_score ∧ s.rerank_score ≤ 1) := by
  have hmem : ∀ s ∈ Reranker.rerank scorer query chunks top_k,
      ∃ c ∈ chunks.take (top_k * 2),
        s = ⟨c, Reranker.score_relevance scorer query c.content⟩ := by
    intro s hs
    have h1 : s ∈ StableSort.sortS Reranker.scoreGe ((chunks.take (top_k * 2)).map
        (fun c => (⟨c, Reranker.score_relevance scorer query c.content⟩ : Reranker.Scored))) :=
      List.mem_of_mem_take hs
    rw [StableSort.mem_sortS] at h1
    obtain ⟨c, hc, heq⟩ := List.mem_map.mp h1
    exact ⟨c, hc, heq.symm⟩
  refine ⟨?_, ?_, ?_, ?_⟩
  · exact (List.length_take_le _ _)
  · have h1 : (Reranker.rerank scorer query chunks top_k).length ≤
        (StableSort.sortS Reranker.scoreGe ((chunks.take (top_k * 2)).map
          (fun c => (⟨c, Reranker.score_relevance scorer query c.content⟩ :
            Reranker.Scored)))).length := by
      rw [Reranker.rerank]
      exact List.length_take_le' _ _
    rw [StableSort.length_sortS] at h1
    simp only [List.length_map, List.length_take] at h1
    omega
  · have hsorted : (StableSort.sortS Reranker.scoreGe ((chunks.take (top_k * 2)).map
        (fun c => (⟨c, Reranker.score_relevance scorer query c.content⟩ :
          Reranker.Scored)))).Pairwise
        (fun a b => Reranker.scoreGe a b = true) := by
      refine StableSort.sorted_sortS _ ?_ ?_ _
      · intro a b c hab hbc
        simp only [Reranker.scoreGe, decide_eq_true_eq] at *
        exact le_trans hbc hab
      · intro a b
        simp only [Reranker.scoreGe]
        rcases le_total b.rerank_score a.rerank_score with h | h
        · exact Or.inl (by simpa using h)
        · exact Or.inr (by simpa using h)
    have := hsorted.sublist (List.take_sublist top_k _)
    exact this.imp (fun h => by
      simpa [Reranker.scoreGe, decide_eq_true_eq] using h)
  · intro s hs
    obtain ⟨c, hc, rfl⟩ := hmem s hs
    refine ⟨hc, rfl, ?_, ?_, ?_⟩
    · intro hnone
      simp [Reranker.score_relevance, hnone]
    · simp only [Reranker.score_relevance]
      rcases scorer query (c.content.take 500) with _ | v
      · norm_num
      · simp only
        exact le_max_left 0 _
    · simp only [Reranker.score_relevance]
      rcases scorer query (c.content.take 500) with _ | v
      · norm_num
      · simp only
        exact max_le (by norm_num) (min_le_left 1 v)

namespace Hybrid

/-- Stored chunk row of the chunks table together with its query-dependent
scores: vecSim is 1 minus the cosine distance to the query embedding (it
can be negative), bm25 is the ts_rank_cd score (nonnegative), and matches
is the tsvector-tsquery match flag; non-matching rows are absent from the
lexical candidate set.  The id doubles as insertion order. -/
structure Row where
  id : Nat
  content : String
  metadata : List (String × String)
  vecSim : ℚ
  bm25 : ℚ
  tsMatch : Bool
deriving DecidableEq

/-- Candidate dictionary returned by hybrid_search lines 148-158. -/
structure Cand where
  id : Nat
  content : String
  metadata : List (String × String)
  score : ℚ
  vector_score : ℚ
  bm25_score : ℚ
deriving DecidableEq

/-- ORDER BY embedding distance ascending, i.e. similarity descending. -/
def vecGe (a b : Row) : Bool := b.vecSim ≤ a.vecSim

/-- ORDER BY ts_rank_cd score descending. -/
def bmGe (a b : Row) : Bool := b.bm25 ≤ a.bm25

/-- ORDER BY combined_score descending — the only sort key of the final
SELECT; no secondary key exists. -/
def combGe (a b : Cand) : Bool := b.score ≤ a.score

/-- vector_search CTE (hybrid_search lines 99-109): all rows ordered by
similarity descending, LIMIT top_k_mult; tie order determinised as stable
over stored order. -/
def vector_search (db : List Row) (k : Nat) : List Row :=
  (StableSort.sortS vecGe db).take k

/-- bm25_search CTE (hybrid_search lines 110-121): matching rows only,
ordered by lexical score descending, LIMIT top_k_mult. -/
def bm25_search (db : List Row) (k : Nat) : List Row :=
  (StableSort.sortS bmGe (db.filter (fun r => r.tsMatch))).take k

/-- COALESCE(b.score, 0) for the lexical side of a vector row. -/
def bmOf (bs : List Row) (v : Row) : ℚ :=
  ((bs.find? (fun b => b.id = v.id)).map Row.bm25).getD 0

/-- One output row of the final SELECT: combined score is the weighted sum
of the two (COALESCEd) component scores. -/
def mkCand (vw bw : ℚ) (r : Row) (v b : ℚ) : Cand :=
  ⟨r.id, r.content, r.metadata, v * vw + b * bw, v, b⟩

/-- FULL OUTER JOIN of the two candidate sets on chunk id (hybrid_search
lines 122-131), with 0 for the missing side.  The join output order is
unspecified in SQL; it is determinised as the vector rows first (in vector
order) followed by the lexical-only rows (in lexical order). -/
def fuse (vw bw : ℚ) (vs bs : List Row) : List Cand :=
  vs.map (fun v => mkCand vw bw v v.vecSim (bmOf bs v)) ++
    (bs.filter (fun b => !(vs.any (fun v => v.id = b.id)))).map
      (fun b => mkCand vw bw b 0 b.bm25)

/-- VectorRepository.hybrid_search lines 75-160: both candidate sets capped
at 2 times top_k, fused by full outer join, ordered by combined score
descending and truncated to top_k.  The method has no filters parameter. -/
def hybrid_search (db : List Row) (top_k : Nat) (vw bw : ℚ) : List Cand :=
  (StableSort.sortS combGe
    (fuse vw bw (vector_search db (top_k * 2)) (bm25_search db (top_k * 2)))).take top_k

/-- Equality predicates of a metadata filter mapping over candidate
metadata — the semantics that search_by_embedding lines 31-43 enforce for
the non-hybrid path. -/
def filterHolds (filters : List (String × String)) (md : List (String × String)) : Prop :=
  ∀ kv ∈ filters, (md.find? (fun e => e.1 = kv.1)).map Prod.snd = some kv.2

instance (filters md : List (String × String)) : Decidable (filterHolds filters md) :=
  List.decidableBAll _ filters

/-- Result dictionary of RetrievalService.retrieve lines 63-68. -/
structure RetrievalResult where
  chunks : List Cand
  total_retrieved : Nat
deriving DecidableEq

/-- RetrievalService.retrieve lines 24-72: embeds the query and performs
hybrid search with the configured weights.  The filters argument is
accepted (line 28) but never forwarded: hybrid_search is called without it
(lines 51-57), and hybrid_search has no filter support at all. -/
def retrieve (db : List Row) (top_k : Nat) (vw bw : ℚ)
    (filters : List (String × String)) : RetrievalResult :=
  let chunks := hybrid_search db top_k vw bw
  ⟨chunks, chunks.length⟩

end Hybrid

namespace Hybrid

/-- Concrete store for the tie-break counterexample: three vector-strong
rows, one row with negative similarity that also matches lexically, and one
lexically-matching row excluded from the vector cap (top_k = 2 gives a
vector cap of 4 over these 5 rows). -/
def c3db : List Row :=
  [⟨0, "r0", [], 8/10, 0, false⟩,
   ⟨1, "r1", [], 7/10, 0, false⟩,
   ⟨2, "r2", [], 6/10, 0, false⟩,
   ⟨3, "rA", [], -(1/2), 2, true⟩,
   ⟨4, "rB", [], -(6/10), 5/4, true⟩]

/-- Concrete store whose only row is present in the vector set alone. -/
def c5vOnlyDb : List Row := [⟨1, "alpha", [], 9/10, 0, false⟩]

/-- Concrete store whose only row is present in both candidate sets. -/
def c5bothDb : List Row := [⟨1, "alpha", [], 8/10, 1/2, true⟩]

/-- Concrete store for the filter claim: one chunk whose metadata violates
the filter mapping lang=en. -/
def c2db : List Row := [⟨1, "bonjour", [("lang", "fr")], 9/10, 0, false⟩]

end Hybrid

/-- C5: every candidate's combined score is vectorScore multiplied by the
vector weight plus lexicalScore multiplied by the lexical weight, with 0
substituted for a missing side by the full outer join; concretely, a
vector-only chunk with similarity 0.9 under weights (0.6, 0.4) fuses to
0.54 with lexical side 0, and a chunk in both sets with scores (0.8, 0.5)
fuses to 0.68. -/
theorem c5_fusion_weighted_sum :
    (∀ (db : List Hybrid.Row) (k : Nat) (vw bw : ℚ),
      ∀ c ∈ Hybrid.hybrid_search db k vw bw,
        c.score = c.vector_score * vw + c.bm25_score * bw) ∧
    ((Hybrid.hybrid_search Hybrid.c5vOnlyDb 1 (6/10) (4/10)).map
        (fun c => (c.score, c.vector_score, c.bm25_score)) = [(27/50, 9/10, 0)]) ∧
    ((Hybrid.hybrid_search Hybrid.c5bothDb 1 (6/10) (4/10)).map
        (fun c => (c.score, c.vector_score, c.bm25_score)) = [(17/25, 4/5, 1/2)]) := by
  refine ⟨?_, ?_, ?_⟩
  · intro db k vw bw c hc
    have h1 : c ∈ Hybrid.fuse vw bw (Hybrid.vector_search db (k * 2))
        (Hybrid.bm25_search db (k * 2)) :=
      (StableSort.mem_sortS _ _ _).mp (List.mem_of_mem_take hc)
    rw [Hybrid.fuse, List.mem_append] at h1
    rcases h1 with h | h <;>
    · obtain ⟨r, _, rfl⟩ := List.mem_map.mp h
      rfl
  · norm_num [Hybrid.c5vOnlyDb, Hybrid.hybrid_search, Hybrid.vector_search,
      Hybrid.bm25_search, Hybrid.fuse, Hybrid.mkCand, Hybrid.bmOf, Hybrid.vecGe,
      Hybrid.bmGe, Hybrid.combGe, StableSort.sortS, StableSort.insertS]
  · norm_num [Hybrid.c5bothDb, Hybrid.hybrid_search, Hybrid.vector_search,
      Hybrid.bm25_search, Hybrid.fuse, Hybrid.mkCand, Hybrid.bmOf, Hybrid.vecGe,
      Hybrid.bmGe, Hybrid.combGe, StableSort.sortS, StableSort.insertS, List.find?]

/-- C3, counterexample.  On c3db with top_k = 2 and weights (0.6, 0.4) the
returned pair of candidates is tied at combined score 0.5, yet the first
has vector score -0.5 and the second (a lexical-only candidate with
COALESCEd vector score 0) the strictly larger vector score: the SQL orders
by combined score alone, so ties are not broken by vector score. -/
theorem c3_tie_not_broken_by_vector_score :
    ((Hybrid.hybrid_search Hybrid.c3db 2 (6/10) (4/10)).map
        (fun c => (c.score, c.vector_score)) = [(1/2, -(1/2)), (1/2, 0)]) ∧
    (-(1/2) : ℚ) < 0 := by
  constructor
  · norm_num [Hybrid.c3db, Hybrid.hybrid_search, Hybrid.vector_search,
      Hybrid.bm25_search, Hybrid.fuse, Hybrid.mkCand, Hybrid.bmOf, Hybrid.vecGe,
      Hybrid.bmGe, Hybrid.combGe, StableSort.sortS, StableSort.insertS, List.find?]
  · norm_num

/-- C3 (amended): the hybrid search result is sorted descending by combined
score and truncated to top_k; candidates with equal combined scores keep
the join order (vector candidates in similarity order before lexical-only
candidates), with no vector-score or insertion-order tie-break. -/
theorem c3_sorted_desc_truncated (db : List Hybrid.Row) (k : Nat) (vw bw : ℚ) :
    (Hybrid.hybrid_search db k vw bw).Pairwise (fun a b => b.score ≤ a.score) ∧
    (Hybrid.hybrid_search db k vw bw).length ≤ k := by
  constructor
  · have hsorted : (StableSort.sortS Hybrid.combGe
        (Hybrid.fuse vw bw (Hybrid.vector_search db (k * 2))
          (Hybrid.bm25_search db (k * 2)))).Pairwise
        (fun a b => Hybrid.combGe a b = true) := by
      refine StableSort.sorted_sortS _ ?_ ?_ _
      · intro a b c hab hbc
        simp only [Hybrid.combGe, decide_eq_true_eq] at *
        exact le_trans hbc hab
      · intro a b
        simp only [Hybrid.combGe]
        rcases le_total b.score a.score with h | h
        · exact Or.inl (by simpa using h)
        · exact Or.inr (by simpa using h)
    have := hsorted.sublist (List.take_sublist k _)
    exact this.imp (fun h => by simpa [Hybrid.combGe] using h)
  · exact List.length_take_le _ _

/-- C2: the retrieval service ignores its metadata filters — the result is
identical whatever filter mapping is passed — and on the concrete store
c2db a returned candidate violates the non-empty filter lang=en, refuting
the claim that no returned candidate violates a filter predicate. -/
theorem c2_filters_ignored_in_hybrid_retrieval :
    (∀ (db : List Hybrid.Row) (k : Nat) (vw bw : ℚ)
        (f g : List (String × String)),
      Hybrid.retrieve db k vw bw f = Hybrid.retrieve db k vw bw g) ∧
    ([(("lang" : String), ("en" : String))] ≠ ([] : List (String × String))) ∧
    (∃ c ∈ (Hybrid.retrieve Hybrid.c2db 5 (6/10) (4/10) [("lang", "en")]).chunks,
      ¬ Hybrid.filterHolds [("lang", "en")] c.metadata) := by
  refine ⟨fun db k vw bw f g => rfl, by simp, ?_⟩
  have heval : (Hybrid.retrieve Hybrid.c2db 5 (6/10) (4/10) [("lang", "en")]).chunks =
      [⟨1, "bonjour", [("lang", "fr")], 27/50, 9/10, 0⟩] := by
    norm_num [Hybrid.c2db, Hybrid.retrieve, Hybrid.hybrid_search, Hybrid.vector_search,
      Hybrid.bm25_search, Hybrid.fuse, Hybrid.mkCand, Hybrid.bmOf, Hybrid.vecGe,
      Hybrid.bmGe, Hybrid.combGe, StableSort.sortS, StableSort.insertS]
  rw [heval]
  refine ⟨⟨1, "bonjour", [("lang", "fr")], 27/50, 9/10, 0⟩, by simp, ?_⟩
  intro h
  have := h ("lang", "en") (by simp)
  simp [List.find?] at this
